import Mathlib

/-!
Verification of the Devin Clone MVP repository against its natural-language
specification.

JavaScript strings are embedded as `List Char`; machine integers do not occur
in the verified fragment (all counts are JavaScript array lengths, embedded as
`Nat`).  Frontend functions are translated from
`frontend/src/components/chat-interface.tsx`, `frontend/src/lib/api.ts` and
`frontend/src/lib/utils/code-optimizer.ts`.  The backend file-tree / quota
core is not part of the shipped sources, so it is modelled from the
specification where a claim requires it (each such definition carries a
`Modelled from the spec:` doc comment).
-/

/-- The character list underlying a string literal (JS string ↦ `List Char`). -/
def chars (s : String) : List Char := s.data

/-- One left-to-right pass of JavaScript's `String.prototype.split(sep)` for a
one-character separator: returns the list of separator-terminated pieces
together with the trailing piece after the last separator. -/
def splitCh (sep : Char) : List Char → List (List Char) × List Char
  | [] => ([], [])
  | c :: rest =>
    let p := splitCh sep rest
    if c = sep then ([] :: p.1, p.2)
    else
      match p.1 with
      | [] => ([], c :: p.2)
      | l :: ls => ((c :: l) :: ls, p.2)

/-- JavaScript `s.split(sep)` (one-character separator): every piece,
including the trailing one, in order.  Never empty. -/
def jsSplit (sep : Char) (s : List Char) : List (List Char) :=
  (splitCh sep s).1 ++ [(splitCh sep s).2]

/-- JavaScript `Array.prototype.join('\n')` over a list of lines. -/
def joinNl : List (List Char) → List Char
  | [] => []
  | [l] => l
  | l :: ls => l ++ '\n' :: joinNl ls

/-- Result record of `truncateLargeFile` (fields `content`, `truncated`,
`totalLines` as in `code-optimizer.ts`). -/
structure TruncateResult where
  content : List Char
  truncated : Bool
  totalLines : Nat

deriving DecidableEq, Repr

/-- `optimizeCodeHighlighting.truncateLargeFile` from
`frontend/src/lib/utils/code-optimizer.ts` (lines 75–93): split the content on
newlines; if the line count is within `maxLines` return the content unchanged,
otherwise keep only the first `maxLines` lines re-joined with newlines. -/
def truncateLargeFile (content : List Char) (maxLines : Nat) : TruncateResult :=
  let lines := jsSplit '\n' content
  let totalLines := lines.length
  if totalLines ≤ maxLines then ⟨content, false, totalLines⟩
  else ⟨joinNl (lines.take maxLines), true, totalLines⟩

/-- The extension-to-language table of
`optimizeCodeHighlighting.detectLanguage` (`code-optimizer.ts`, lines 8–56),
in source order. -/
def languageMap : List (String × String) :=
  [("js", "javascript"), ("jsx", "jsx"), ("ts", "typescript"), ("tsx", "tsx"),
   ("py", "python"), ("rb", "ruby"), ("go", "go"), ("rs", "rust"),
   ("java", "java"), ("cpp", "cpp"), ("c", "c"), ("cs", "csharp"),
   ("php", "php"), ("swift", "swift"), ("kt", "kotlin"), ("scala", "scala"),
   ("r", "r"), ("m", "objectivec"), ("pl", "perl"), ("lua", "lua"),
   ("dart", "dart"), ("sql", "sql"), ("sh", "bash"), ("bash", "bash"),
   ("zsh", "bash"), ("fish", "bash"), ("ps1", "powershell"),
   ("psm1", "powershell"), ("json", "json"), ("xml", "xml"), ("yml", "yaml"),
   ("yaml", "yaml"), ("toml", "toml"), ("ini", "ini"), ("cfg", "ini"),
   ("conf", "ini"), ("md", "markdown"), ("mdx", "markdown"), ("css", "css"),
   ("scss", "scss"), ("sass", "sass"), ("less", "less"), ("html", "html"),
   ("vue", "vue"), ("svelte", "svelte")]

/-- `filename.split('.').pop()?.toLowerCase()` from `detectLanguage`: the
piece after the last `'.'` (the whole name when there is no dot), lowercased. -/
def extOf (filename : List Char) : String :=
  String.mk ((splitCh '.' filename).2.map Char.toLower)

/-- `optimizeCodeHighlighting.detectLanguage` from `code-optimizer.ts`
(lines 7–57): look the lowercased final extension up in `languageMap`;
`none` models the `undefined` result. -/
def detectLanguage (filename : List Char) : Option String :=
  languageMap.lookup (extOf filename)

/-- A JSON object body as far as `fetchApi` inspects it: its optional `detail`
field (a string when present) plus the remaining fields, which `fetchApi`
never looks at. -/
structure JsonValue where
  detail : Option String
  fields : List (String × String)

deriving DecidableEq, Repr

/-- An HTTP response as consumed by `fetchApi` (`frontend/src/lib/api.ts`,
lines 9–35): `ok`, `statusText`, and the body — `none` when
`response.json()` rejects because the body is not valid JSON. -/
structure ApiResponse where
  ok : Bool
  statusText : String
  body : Option JsonValue

deriving DecidableEq, Repr

/-- How a `fetchApi` call resolves: the parsed JSON body, an `Error` thrown by
`fetchApi` itself (with its message), or the uncaught rejection of
`response.json()` on an ok response with an unparseable body. -/
inductive FetchOutcome where
  | success (body : JsonValue)
  | thrown (message : String)
  | jsonError

deriving DecidableEq, Repr

/-- `fetchApi` from `frontend/src/lib/api.ts` (lines 9–35), error handling
only (auth-header assembly and the network call itself are outside the model):
on a non-ok response, parse the body (an unparseable body becomes the empty
object `{}` via `.catch`) and throw `new Error(error.detail ||
`API Error: statusText`)` — JavaScript `||` falls through when `detail` is
absent or the empty string; on an ok response, return `response.json()`. -/
def fetchApi (r : ApiResponse) : FetchOutcome :=
  if r.ok then
    match r.body with
    | some v => .success v
    | none => .jsonError
  else
    match (match r.body with
           | some v => v.detail
           | none => none) with
    | some d => if d = "" then .thrown ("API Error: " ++ r.statusText)
                else .thrown d
    | none => .thrown ("API Error: " ++ r.statusText)

/-- A chat message as the `ChatMessage` interface of the frontend holds it
(`frontend/src/lib/api.ts`): optimistic placeholders use ids beginning with
`temp-`. -/
structure ChatMessage where
  id : String
  session_id : String
  role : String
  content : String

deriving DecidableEq, Repr

/-- The error handler of `sendMessage`
(`frontend/src/components/chat-interface.tsx`, lines 187–197): on failure the
message list is replaced by
`prev.filter(m => !m.id.startsWith('temp-'))`. -/
def removeTempMessages (msgs : List ChatMessage) : List ChatMessage :=
  msgs.filter (fun m => !(m.id.startsWith "temp-"))

/-- Quota dimension reported with `QuotaExceeded` (spec §4.2: file count vs.
size). -/
inductive QuotaDim where
  | files
  | size

deriving DecidableEq, Repr

/-- Modelled from the spec: the error taxonomy of §7 (`PathConflict`,
`InvalidParent`, `CycleDetected`, `QuotaExceeded` with dimension, `NotFound`,
`UpstreamUnavailable`); the backend that raises these is not among the shipped
sources.  `invalidPath` covers §4.1's mandated rejection of non-normalizable
paths (redundant separators collapse, `..` segments refused), which §7 leaves
unnamed. -/
inductive SpecError where
  | pathConflict
  | invalidParent
  | cycleDetected
  | quotaExceeded (dim : QuotaDim)
  | notFound
  | upstreamUnavailable
  | invalidPath

deriving DecidableEq, Repr

/-- One event arriving from the external completion provider (spec §6: a
fragment stream terminated by an explicit end marker; the connection can be
lost or time out mid-stream). -/
inductive ProviderEvent where
  | fragment (s : List Char)
  | endMarker
  | connectionLost
  | timeout

deriving DecidableEq, Repr

/-- Modelled from the spec: the Chat Relay's `send` (§4.3), whose backend
implementation is not among the shipped sources.  It forwards provider
fragments until the explicit end marker; if the provider connection fails or
times out mid-stream (including a stream that ends with no end marker), it
surfaces the distinct `UpstreamUnavailable` condition. -/
def relaySend : List ProviderEvent → Except SpecError (List (List Char))
  | [] => .error .upstreamUnavailable
  | ProviderEvent.fragment s :: rest => (relaySend rest).map (fun l => s :: l)
  | ProviderEvent.endMarker :: _ => .ok []
  | ProviderEvent.connectionLost :: _ => .error .upstreamUnavailable
  | ProviderEvent.timeout :: _ => .error .upstreamUnavailable

deriving instance DecidableEq for Except

/-- A normalized path (spec §3): forward-slash separated, kept here as its
list of segments; two `ProjectFile`s share a normalized path exactly when
their segment lists are equal. -/
abbrev TreePath := List (List Char)

/-- Modelled from the spec: path normalization (§4.1 algorithm notes, backend
not among the shipped sources) — collapse redundant separators (empty
segments) and reject `..` escape segments; an empty result is likewise
rejected. -/
def normalizePath (raw : List Char) : Option TreePath :=
  let segs := (jsSplit '/' raw).filter (fun s => s ≠ [])
  if segs = [] ∨ (chars "..") ∈ segs then none else some segs

/-- A `ProjectFile` as far as the tree invariants see it (spec §3): identity,
normalized path, kind, size in bytes (0 for directories). -/
structure TreeFile where
  id : Nat
  path : TreePath
  isDir : Bool
  sizeBytes : Nat

deriving DecidableEq, Repr

/-- A project with its quota limits and its flat `ProjectFile` set
(spec §3). -/
structure Project where
  maxFiles : Nat
  maxSizeKb : Nat
  files : List TreeFile

deriving DecidableEq, Repr

/-- The normalized paths of a project's files, in store order. -/
def filePaths (pr : Project) : List TreePath := pr.files.map TreeFile.path

/-- Spec §3 file-count accounting: number of `type=file` entries. -/
def fileCount (pr : Project) : Nat := (pr.files.filter (fun f => !f.isDir)).length

/-- Spec §3 size accounting: sum of `size_bytes` over `type=file` entries. -/
def totalSizeBytes (pr : Project) : Nat :=
  ((pr.files.filter (fun f => !f.isDir)).map TreeFile.sizeBytes).sum

/-- Path uniqueness (spec §3): no two `ProjectFile`s of the project share a
normalized path. -/
def PathsNodup (pr : Project) : Prop := (filePaths pr).Nodup

instance (pr : Project) : Decidable (PathsNodup pr) :=
  inferInstanceAs (Decidable (filePaths pr).Nodup)

/-- Modelled from the spec: `create` of the File Tree Manager (§4.1, backend
not among the shipped sources) — normalize the requested path, fail with
`PathConflict` when the normalized path already exists in the project, fail
with `QuotaExceeded` (naming the violated dimension, §4.2) when the existing
aggregate plus the new entry would exceed `max_files` or `max_size_kb`, and
otherwise persist the entry; directories carry size 0 and, per the
type=file accounting of §3, do not count against `max_files`. -/
def createFile (pr : Project) (fid : Nat) (raw : List Char) (isDir : Bool)
    (size : Nat) : Except SpecError Project :=
  match normalizePath raw with
  | none => .error .invalidPath
  | some p =>
    if _h : ∃ g ∈ pr.files, g.path = p then .error .pathConflict
    else if pr.maxFiles < fileCount pr + (if isDir then 0 else 1) then
      .error (.quotaExceeded .files)
    else if pr.maxSizeKb * 1024 < totalSizeBytes pr + (if isDir then 0 else size) then
      .error (.quotaExceeded .size)
    else .ok { pr with files := pr.files ++ [⟨fid, p, isDir, if isDir then 0 else size⟩] }

/-- Rewrite one path under a subtree move: a path below `base` is re-rooted at
`newBase`; any other path is untouched. -/
def rewritePath (base newBase : TreePath) (q : TreePath) : TreePath :=
  if base <+: q then newBase ++ q.drop base.length else q

/-- Modelled from the spec: the shared core of `move` and rename (§4.1,
backend not among the shipped sources) — fail with `CycleDetected` when the
new path lies strictly inside the moved entry's own subtree, fail with
`PathConflict` when a rewritten path would collide with an entry outside the
moved subtree (§6: the store enforces a unique constraint on
`(project_id, path)`, and §5 requires the invariants re-validated inside the
writing transaction), and otherwise update the entry and all its descendants
transactionally. -/
def moveTo (pr : Project) (f : TreeFile) (p : TreePath) : Except SpecError Project :=
  if f.path <+: p ∧ p ≠ f.path then .error .cycleDetected
  else if _h : ∃ g ∈ pr.files, ¬ f.path <+: g.path ∧
      ∃ t ∈ pr.files, f.path <+: t.path ∧ g.path = rewritePath f.path p t.path
    then .error .pathConflict
  else .ok { pr with files := pr.files.map (fun g =>
    { g with path := rewritePath f.path p g.path }) }

/-- Modelled from the spec: `move` of the File Tree Manager (§4.1, backend
not among the shipped sources) — resolve the file (`NotFound` otherwise),
normalize the requested path, then apply the shared move core. -/
def moveFile (pr : Project) (fid : Nat) (raw : List Char) : Except SpecError Project :=
  match pr.files.find? (fun f => f.id == fid) with
  | none => .error .notFound
  | some f =>
    match normalizePath raw with
    | none => .error .invalidPath
    | some p => moveTo pr f p

/-- Modelled from the spec: rename via `update` (§4.1, backend not among the
shipped sources) — a name change replaces the path's final segment and
recursively updates all descendant paths; the new name must be a single
normalized segment. -/
def renameFile (pr : Project) (fid : Nat) (newName : List Char) : Except SpecError Project :=
  match pr.files.find? (fun f => f.id == fid) with
  | none => .error .notFound
  | some f =>
    if newName = [] ∨ '/' ∈ newName ∨ newName = chars ".." then .error .invalidPath
    else moveTo pr f (f.path.dropLast ++ [newName])

/-- One mutation of the file tree, as C2 quantifies over them. -/
inductive FileOp where
  | create (id : Nat) (rawPath : List Char) (isDir : Bool) (size : Nat)
  | move (id : Nat) (rawPath : List Char)
  | rename (id : Nat) (newName : List Char)

deriving DecidableEq, Repr

/-- Dispatch one operation to the File Tree Manager. -/
def applyOp (pr : Project) : FileOp → Except SpecError Project
  | .create i p d s => createFile pr i p d s
  | .move i p => moveFile pr i p
  | .rename i n => renameFile pr i n

/-- Run one operation; a failed operation leaves the project unchanged
(spec §7: synchronous failure, no partial mutation). -/
def stepOp (pr : Project) (op : FileOp) : Project :=
  match applyOp pr op with
  | .ok pr' => pr'
  | .error _ => pr

/-- Run a sequence of operations in order. -/
def applyOps (pr : Project) (ops : List FileOp) : Project := ops.foldl stepOp pr

/-- The backtick character (U+0060), delimiter of fenced code blocks. -/
def bq : Char := Char.ofNat 96

/-- JavaScript regex `\w` (ASCII word character). -/
def wordChar (c : Char) : Bool := c.isAlphanum || c = '_'

/-- JavaScript `String.prototype.trim()`: strip whitespace from both ends. -/
def trimChars (s : List Char) : List Char :=
  ((s.dropWhile Char.isWhitespace).reverse.dropWhile Char.isWhitespace).reverse

/-- Whether the text starts with three consecutive backticks. -/
def startsTriple : List Char → Bool
  | a :: b :: c :: _ => a == bq && b == bq && c == bq
  | _ => false

/-- The maximal leading run of word characters and the remainder — how the
greedy group `(\w+)?` must behave when a `\n` literal follows it. -/
def takeWord : List Char → List Char × List Char
  | [] => ([], [])
  | c :: rest =>
    if wordChar c then
      let p := takeWord rest
      (c :: p.1, p.2)
    else ([], c :: rest)

/-- Matching the opening of the pattern `` ```(\w+)?\n `` at this very
position: three backticks, an optional word-character language tag, then a
newline; yields the tag and the text after the newline. -/
def openFence (s : List Char) : Option (List Char × List Char) :=
  if startsTriple s then
    match takeWord (s.drop 3) with
    | (w, c :: r) => if c = '\n' then some (w, r) else none
    | (_, []) => none
  else none

/-- The lazy body `(.*?)` up to the first closing ``` ``` `` (dot-all, so the
body may span newlines): the body and the text after the closing fence. -/
def findClose : List Char → Option (List Char × List Char)
  | [] => none
  | c :: rest =>
    if startsTriple (c :: rest) then some ([], (c :: rest).drop 3)
    else
      match findClose rest with
      | some (body, r) => some (c :: body, r)
      | none => none

/-- One attempt of the regex `` /```(\w+)?\n(.*?)```/gs `` anchored at this
position: language-tag group, body group, and the text after the match. -/
def fenceMatch (s : List Char) : Option (List Char × List Char × List Char) :=
  match openFence s with
  | some (w, r) =>
    match findClose r with
    | some (body, rest) => some (w, body, rest)
    | none => none
  | none => none

/-- `match[1] || 'plaintext'`: an absent language group (the empty tag)
defaults to `plaintext`. -/
def langOf (w : List Char) : String := if w = [] then "plaintext" else String.mk w

/-- The `pattern.exec` loop: try a match at the current position; on success
record the group pair and continue right after the match, otherwise advance
one position.  Structural on a fuel argument that the wrappers instantiate
with the text length (each step consumes at least one character, so that fuel
is never exhausted). -/
def scanAux : Nat → List Char → List (List Char × List Char)
  | 0, _ => []
  | fuel + 1, s =>
    match fenceMatch s with
    | some (w, b, rest) => (w, b) :: scanAux fuel rest
    | none =>
      match s with
      | [] => []
      | _ :: t => scanAux fuel t

/-- All raw `(tag, body)` group pairs of the global regex over the text, in
source order. -/
def scanBlocks (s : List Char) : List (List Char × List Char) :=
  scanAux s.length s

/-- `extractCodeBlocks` from
`frontend/src/components/chat-interface.tsx` (lines 200–213): every fenced
region, as a `(language, code)` pair with the `plaintext` default and the
trimmed body. -/
def extractCodeBlocks (content : List Char) : List (String × List Char) :=
  (scanBlocks content).map (fun p => (langOf p.1, trimChars p.2))

/-- One rendered part of a chat message: a plain-text paragraph or a code
block with its language header. -/
inductive MsgPart where
  | text (s : List Char)
  | code (language : String) (code : List Char)

deriving DecidableEq, Repr

/-- The code-block data carried by a rendered part, if it is one. -/
def codeOf : MsgPart → Option (String × List Char)
  | MsgPart.code l c => some (l, c)
  | MsgPart.text _ => none

/-- The `renderMessageContent` loop (`chat-interface.tsx`, lines 215–308),
with `pre` the pending text between `lastIndex` and the next match: on each
regex match it pushes the pending text part (when non-empty) and a code part
built with the same `plaintext` default and the same trim, and after the loop
it pushes the remaining text (when non-empty). -/
def renderAux : Nat → List Char → List Char → List MsgPart
  | 0, pre, _ => if pre = [] then [] else [MsgPart.text pre]
  | fuel + 1, pre, s =>
    match fenceMatch s with
    | some (w, b, rest) =>
      (if pre = [] then [] else [MsgPart.text pre])
        ++ MsgPart.code (langOf w) (trimChars b) :: renderAux fuel [] rest
    | none =>
      match s with
      | [] => if pre = [] then [] else [MsgPart.text pre]
      | c :: t => renderAux fuel (pre ++ [c]) t

/-- `renderMessageContent` from `chat-interface.tsx` (lines 215–308), as the
ordered list of parts it renders. -/
def renderMessageContent (content : List Char) : List MsgPart :=
  renderAux content.length [] content

/-- A fenced block exactly as the regex recognises it: three backticks, the
language tag, a newline, the body, three backticks. -/
def fenceBlock (lang : String) (body : List Char) : List Char :=
  bq :: bq :: bq :: (chars lang ++ '\n' :: (body ++ bq :: bq :: bq :: []))

/-- The `data: ` prefix of a server-sent-event data line. -/
def dataMarker : List Char := chars "data: "

/-- The fields of a parsed stream event that `sendMessage` reads:
`data.content` and `data.done`. -/
structure StreamData where
  content : Option (List Char)
  done : Bool

deriving DecidableEq, Repr

/-- The line handler inside `sendMessage`'s read loop
(`chat-interface.tsx`, lines 157–180): on a `data: `-prefixed line, parse the
rest as JSON (`parse` stands for `JSON.parse` plus field access; `none` is a
parse error, which is ignored) and append `data.content` to the assistant
message when it is truthy (a non-empty string). -/
def processStreamLine (parse : List Char → Option StreamData)
    (acc line : List Char) : List Char :=
  if dataMarker <+: line then
    match parse (line.drop 6) with
    | some d =>
      match d.content with
      | some c => if c = [] then acc else acc ++ c
      | none => acc
    | none => acc
  else acc

/-- One iteration of `sendMessage`'s read loop (`chat-interface.tsx`, lines
149–182) on the state `(buffer, content)`: append the decoded chunk to the
buffer, split on newlines, pop the trailing piece back into the buffer, and
process each complete line. -/
def processStreamChunk (parse : List Char → Option StreamData)
    (st : List Char × List Char) (chunk : List Char) : List Char × List Char :=
  let pieces := splitCh '\n' (st.1 ++ chunk)
  (pieces.2, pieces.1.foldl (processStreamLine parse) st.2)

/-- The assistant message content accumulated by `sendMessage`'s read loop
over a finite stream of chunks, starting from an empty buffer and empty
content. -/
def streamLoopContent (parse : List Char → Option StreamData)
    (chunks : List (List Char)) : List Char :=
  (chunks.foldl (processStreamChunk parse) ([], [])).2

/-- The contribution of a single received line per the claim: the `content`
field when the line is `data: `-prefixed and parses, nothing otherwise. -/
def lineContent (parse : List Char → Option StreamData)
    (line : List Char) : Option (List Char) :=
  if dataMarker <+: line then (parse (line.drop 6)).bind StreamData.content else none

/-- The concatenation, in order, of the `content` fields of the given
lines. -/
def contentConcat (parse : List Char → Option StreamData)
    (lines : List (List Char)) : List Char :=
  (lines.filterMap (lineContent parse)).flatten

/-- A concrete stand-in for `JSON.parse` on the one relevant payload. -/
def parseHi : List Char → Option StreamData :=
  fun l => if l = chars "\x7b\"content\":\"hi\"\x7d" then some ⟨some (chars "hi"), false⟩
           else none

example : detectLanguage (chars "main.py") = some "python" := by decide

example : detectLanguage (chars "A.B.TS") = some "typescript" := by decide

example : detectLanguage (chars "noext") = none := by decide

example : detectLanguage (chars "x.unknown") = none := by decide

example : truncateLargeFile (chars "a\nb\nc") 2 = ⟨chars "a\nb", true, 3⟩ := by decide

example : truncateLargeFile (chars "a\nb\nc") 3 = ⟨chars "a\nb\nc", false, 3⟩ := by decide

example : createFile ⟨2, 10240, []⟩ 1 (chars "/a.py") false 10
    = Except.ok ⟨2, 10240, [⟨1, [chars "a.py"], false, 10⟩]⟩ := by decide

example : normalizePath (chars "//src///main.py") = some [chars "src", chars "main.py"] := by decide

example : normalizePath (chars "/src/../etc") = none := by decide

example : moveFile ⟨9, 99, [⟨1, [chars "src"], true, 0⟩, ⟨2, [chars "src", chars "a.py"], false, 5⟩]⟩
    1 (chars "/lib")
    = Except.ok ⟨9, 99, [⟨1, [chars "lib"], true, 0⟩, ⟨2, [chars "lib", chars "a.py"], false, 5⟩]⟩ := by decide

example : renameFile ⟨9, 99, [⟨1, [chars "src"], true, 0⟩, ⟨2, [chars "src", chars "a.py"], false, 5⟩]⟩
    2 (chars "b.py")
    = Except.ok ⟨9, 99, [⟨1, [chars "src"], true, 0⟩, ⟨2, [chars "src", chars "b.py"], false, 5⟩]⟩ := by decide

example : moveFile ⟨9, 99, [⟨1, [chars "src"], true, 0⟩, ⟨2, [chars "src", chars "a.py"], false, 5⟩]⟩
    1 (chars "/src/a.py/sub") = Except.error SpecError.cycleDetected := by decide

example : createFile ⟨9, 99, [⟨1, [chars "readme.md"], false, 3⟩]⟩ 2 (chars "/readme.md") false 3
    = Except.error SpecError.pathConflict := by decide

example : extractCodeBlocks (chars "a ```python\nx = 1\n``` b ```\ny``` c")
    = [("python", chars "x = 1"), ("plaintext", chars "y")] := by decide

example : extractCodeBlocks (chars "no blocks here") = [] := by decide

example : extractCodeBlocks (chars "```python\np``````javascript\nj```")
    = [("python", chars "p"), ("javascript", chars "j")] := by decide

example : extractCodeBlocks (chars "``` \nnot a tag") = [] := by decide

example : renderMessageContent (chars "a ```python\nx = 1\n``` b")
    = [MsgPart.text (chars "a "), MsgPart.code "python" (chars "x = 1"),
       MsgPart.text (chars " b")] := by decide

example : streamLoopContent parseHi
    [chars "data: \x7b\"content\":", chars "\"hi\"\x7d\ndata", chars ": \x7b\"content\":\"hi\"\x7d\n"]
    = chars "hihi" := by decide

example : streamLoopContent parseHi [chars "data: \x7b\"content\":\"hi\"\x7d"] = [] := by decide

lemma lookup_none_of_no_key (k : String) (l : List (String × String))
    (h : ∀ p ∈ l, p.1 ≠ k) : List.lookup k l = none := by
  induction l with
  | nil => rfl
  | cons p t ih =>
    have h1 : p.1 ≠ k := h p (by simp)
    have h2 : ∀ q ∈ t, q.1 ≠ k := fun q hq => h q (by simp [hq])
    have hb : (k == p.1) = false := by
      simp only [beq_eq_false_iff_ne, ne_eq]
      exact fun e => h1 e.symm
    simp [List.lookup, hb, ih h2]

lemma splitCh_sep_not_mem (sep : Char) (s : List Char) :
    (∀ l ∈ (splitCh sep s).1, sep ∉ l) ∧ sep ∉ (splitCh sep s).2 := by
  induction s with
  | nil => simp [splitCh]
  | cons c rest ih =>
    by_cases hc : c = sep
    · simp only [splitCh, hc, if_pos rfl]
      exact ⟨fun l hl => by
        rcases List.mem_cons.mp hl with h | h
        · subst h; simp
        · exact ih.1 l h, ih.2⟩
    · simp only [splitCh, if_neg hc]
      rcases hp : (splitCh sep rest).1 with _ | ⟨l, ls⟩
      · refine ⟨by simp, ?_⟩
        simp only [List.mem_cons, not_or]
        exact ⟨fun e => hc e.symm, ih.2⟩
      · refine ⟨fun m hm => ?_, ih.2⟩
        rcases List.mem_cons.mp hm with h | h
        · subst h
          simp only [List.mem_cons, not_or]
          exact ⟨fun e => hc e.symm, ih.1 l (by rw [hp]; simp)⟩
        · exact ih.1 m (by rw [hp]; simp [h])

lemma jsSplit_sep_not_mem (sep : Char) (s : List Char) :
    ∀ l ∈ jsSplit sep s, sep ∉ l := by
  intro l hl
  rcases List.mem_append.mp hl with h | h
  · exact (splitCh_sep_not_mem sep s).1 l h
  · rw [List.mem_singleton.mp h]
    exact (splitCh_sep_not_mem sep s).2

lemma splitCh_no_sep (sep : Char) (s : List Char) (h : sep ∉ s) :
    splitCh sep s = ([], s) := by
  induction s with
  | nil => rfl
  | cons c rest ih =>
    have hc : ¬ c = sep := fun e => h (by simp [e])
    have hr : sep ∉ rest := fun m => h (by simp [m])
    simp [splitCh, hc, ih hr]

lemma splitCh_append_sep (sep : Char) (x z : List Char) (h : sep ∉ x) :
    splitCh sep (x ++ sep :: z) = (x :: (splitCh sep z).1, (splitCh sep z).2) := by
  induction x with
  | nil => simp [splitCh]
  | cons c x' ih =>
    have hc : ¬ c = sep := fun e => h (by simp [e])
    have hx' : sep ∉ x' := fun m => h (by simp [m])
    simp [splitCh, hc, ih hx']

lemma jsSplit_joinNl (ls : List (List Char)) (hne : ls ≠ [])
    (h : ∀ l ∈ ls, '\n' ∉ l) : jsSplit '\n' (joinNl ls) = ls := by
  induction ls with
  | nil => exact absurd rfl hne
  | cons x t ih =>
    cases t with
    | nil =>
      have hx : '\n' ∉ x := h x (by simp)
      simp [joinNl, jsSplit, splitCh_no_sep '\n' x hx]
    | cons y r =>
      have hx : '\n' ∉ x := h x (by simp)
      have hrest : ∀ l ∈ y :: r, '\n' ∉ l := fun l hl => h l (by simp [hl])
      have hj : joinNl (x :: y :: r) = x ++ '\n' :: joinNl (y :: r) := rfl
      rw [hj]
      have := ih (by simp) hrest
      simp only [jsSplit, splitCh_append_sep '\n' x _ hx] at *
      simp [this]

/-- C7: `detectLanguage` depends only on the lowercased piece after the last
dot: it is a pure table lookup on that extension, every table entry maps to
its listed language (in particular `py ↦ python`, `ts ↦ typescript`), and any
extension outside the table yields `undefined` (`none`). -/
theorem claim_c7_detect_language :
    (∀ f1 f2 : List Char, extOf f1 = extOf f2 → detectLanguage f1 = detectLanguage f2)
    ∧ (∀ p ∈ languageMap, languageMap.lookup p.1 = some p.2)
    ∧ detectLanguage (chars "main.py") = some "python"
    ∧ detectLanguage (chars "app.ts") = some "typescript"
    ∧ (∀ f : List Char, (∀ p ∈ languageMap, p.1 ≠ extOf f) → detectLanguage f = none) := by
  refine ⟨fun f1 f2 h => by simp [detectLanguage, h], by decide, by decide, by decide, ?_⟩
  intro f hf
  exact lookup_none_of_no_key (extOf f) languageMap hf

theorem claim_c7_detect_language_witness :
    detectLanguage (chars "A.PY") = detectLanguage (chars "b.py")
    ∧ detectLanguage (chars "file.xyz") = none :=
  ⟨claim_c7_detect_language.1 (chars "A.PY") (chars "b.py") (by decide),
   claim_c7_detect_language.2.2.2.2 (chars "file.xyz") (by decide)⟩

/-- C9: for positive `maxLines`, `truncateLargeFile` reports the
newline-separated line count as `totalLines`; when that count fits it returns
the content unchanged and untruncated, and otherwise its result splits back
into exactly the first `maxLines` lines, flagged truncated. -/
theorem claim_c9_truncate_large_file (content : List Char) (maxLines : Nat)
    (hpos : 0 < maxLines) :
    (truncateLargeFile content maxLines).totalLines = (jsSplit '\n' content).length
    ∧ ((jsSplit '\n' content).length ≤ maxLines →
        (truncateLargeFile content maxLines).content = content ∧
        (truncateLargeFile content maxLines).truncated = false)
    ∧ (maxLines < (jsSplit '\n' content).length →
        jsSplit '\n' (truncateLargeFile content maxLines).content
          = (jsSplit '\n' content).take maxLines ∧
        (truncateLargeFile content maxLines).truncated = true) := by
  by_cases hle : (jsSplit '\n' content).length ≤ maxLines
  · refine ⟨by simp [truncateLargeFile, hle], fun _ => ⟨by simp [truncateLargeFile, hle], by simp [truncateLargeFile, hle]⟩, fun hgt => absurd hle (by omega)⟩
  · have hgt : maxLines < (jsSplit '\n' content).length := by omega
    refine ⟨by simp [truncateLargeFile, hle], fun h => absurd h hle, fun _ => ⟨?_, by simp [truncateLargeFile, hle]⟩⟩
    have hres : (truncateLargeFile content maxLines).content
        = joinNl ((jsSplit '\n' content).take maxLines) := by
      simp [truncateLargeFile, hle]
    rw [hres]
    apply jsSplit_joinNl
    · intro he
      have : (jsSplit '\n' content).length = 0 ∨ maxLines = 0 := by
        rcases List.take_eq_nil_iff.mp he with h | h
        · exact Or.inr h
        · exact Or.inl (by simp [h])
      omega
    · intro l hl
      exact jsSplit_sep_not_mem '\n' content l (List.take_subset _ _ hl)

theorem claim_c9_truncate_large_file_witness :
    (truncateLargeFile (chars "a\nb\nc") 2).totalLines = (jsSplit '\n' (chars "a\nb\nc")).length
    ∧ ((jsSplit '\n' (chars "a\nb\nc")).length ≤ 2 →
        (truncateLargeFile (chars "a\nb\nc") 2).content = chars "a\nb\nc" ∧
        (truncateLargeFile (chars "a\nb\nc") 2).truncated = false)
    ∧ (2 < (jsSplit '\n' (chars "a\nb\nc")).length →
        jsSplit '\n' (truncateLargeFile (chars "a\nb\nc") 2).content
          = (jsSplit '\n' (chars "a\nb\nc")).take 2 ∧
        (truncateLargeFile (chars "a\nb\nc") 2).truncated = true) :=
  claim_c9_truncate_large_file (chars "a\nb\nc") 2 (by decide)

/-- C6 counterexample: a non-ok response whose JSON body *has* a `detail`
field holding the empty string.  The claim says the thrown message is then
the `detail` field (`""`), but `error.detail || fallback` is falsy on `""`,
so the code throws `"API Error: Bad Request"` instead. -/
theorem claim_c6_counterexample :
    fetchApi ⟨false, "Bad Request", some ⟨some "", []⟩⟩
      = FetchOutcome.thrown ("API Error: " ++ "Bad Request")
    ∧ ("API Error: " ++ "Bad Request" : String) ≠ "" := by
  exact ⟨rfl, by decide⟩

lemma fetchApi_not_ok (st : String) (body : Option JsonValue) :
    fetchApi ⟨false, st, body⟩
      = (match body.bind JsonValue.detail with
         | some d => if d = "" then FetchOutcome.thrown ("API Error: " ++ st)
                     else FetchOutcome.thrown d
         | none => FetchOutcome.thrown ("API Error: " ++ st)) := by
  cases body with
  | none => rfl
  | some w => rfl

/-- C6 (amended): `fetchApi` resolves with the parsed JSON body exactly when
the response is ok and its body parses as JSON (an ok response with an
unparseable body propagates the JSON parse rejection instead); on a non-ok
response it throws an `Error` whose message is the body's `detail` field when
that field is present and non-empty, and `API Error: <statusText>` otherwise
— every failure is thrown, never silently swallowed. -/
theorem claim_c6_fetch_api (r : ApiResponse) :
    ((∃ v, fetchApi r = FetchOutcome.success v) ↔ r.ok = true ∧ r.body.isSome)
    ∧ (∀ v, fetchApi r = FetchOutcome.success v → r.body = some v)
    ∧ (r.ok = false → ∀ d, r.body.bind JsonValue.detail = some d → d ≠ "" →
        fetchApi r = FetchOutcome.thrown d)
    ∧ (r.ok = false →
        (r.body.bind JsonValue.detail = none ∨ r.body.bind JsonValue.detail = some "") →
        fetchApi r = FetchOutcome.thrown ("API Error: " ++ r.statusText)) := by
  obtain ⟨ok, st, body⟩ := r
  cases ok with
  | true =>
    refine ⟨?_, ?_, by simp, by simp⟩
    · cases body with
      | none => simp [fetchApi]
      | some v => exact ⟨fun _ => ⟨rfl, rfl⟩, fun _ => ⟨v, rfl⟩⟩
    · intro v hv
      cases body with
      | none => simp [fetchApi] at hv
      | some w =>
        have : FetchOutcome.success w = FetchOutcome.success v := hv
        cases this
        rfl
  | false =>
    have hnots : ∀ v : JsonValue, fetchApi ⟨false, st, body⟩ ≠ FetchOutcome.success v := by
      intro v h
      rw [fetchApi_not_ok] at h
      rcases hdet : body.bind JsonValue.detail with _ | d <;> rw [hdet] at h
      · exact FetchOutcome.noConfusion h
      · by_cases hd : d = "" <;> simp [hd] at h
    refine ⟨?_, ?_, ?_, ?_⟩
    · exact ⟨fun ⟨v, hv⟩ => absurd hv (hnots v), fun ⟨h, _⟩ => absurd h (by simp)⟩
    · exact fun v hv => absurd hv (hnots v)
    · intro _ d hd hne
      rw [fetchApi_not_ok, hd]
      simp [hne]
    · intro _ hd
      rcases hd with h | h
      · rw [fetchApi_not_ok, h]
      · rw [fetchApi_not_ok, h]
        simp

theorem claim_c6_fetch_api_witness :
    fetchApi ⟨false, "Not Found", some ⟨some "Project not found", []⟩⟩
      = FetchOutcome.thrown "Project not found" :=
  (claim_c6_fetch_api ⟨false, "Not Found", some ⟨some "Project not found", []⟩⟩).2.2.1
    rfl "Project not found" rfl (by decide)

/-- C5: every mid-stream failure of the relay is surfaced as the one distinct
`UpstreamUnavailable` error, and after the `sendMessage` error handler runs no
message whose id starts with `temp-` remains in the list.  (The relay backend
is modelled from the spec; the rollback filter is translated from
`chat-interface.tsx`.) -/
theorem claim_c5_upstream_rollback (events : List ProviderEvent) (e : SpecError)
    (msgs : List ChatMessage) (h : relaySend events = Except.error e) :
    e = SpecError.upstreamUnavailable
    ∧ ∀ m ∈ removeTempMessages msgs, m.id.startsWith "temp-" = false := by
  constructor
  · induction events with
    | nil => cases h; rfl
    | cons ev rest ih =>
      cases ev with
      | fragment s =>
        rcases hr : relaySend rest with err | val
        · exact ih (by simpa [relaySend, hr, Except.map] using h)
        · rw [relaySend, hr] at h
          exact Except.noConfusion (show Except.ok (s :: val) = Except.error e from h)
      | endMarker => cases h
      | connectionLost => cases h; rfl
      | timeout => cases h; rfl
  · intro m hm
    have := List.of_mem_filter hm
    simpa using this

theorem claim_c5_upstream_rollback_witness :
    SpecError.upstreamUnavailable = SpecError.upstreamUnavailable
    ∧ ∀ m ∈ removeTempMessages
        [⟨"temp-user", "s1", "user", "hi"⟩, ⟨"m1", "s1", "assistant", "ok"⟩,
         ⟨"temp-assistant", "s1", "assistant", "par"⟩],
        m.id.startsWith "temp-" = false :=
  claim_c5_upstream_rollback
    [ProviderEvent.fragment (chars "Hello"), ProviderEvent.connectionLost]
    SpecError.upstreamUnavailable
    [⟨"temp-user", "s1", "user", "hi"⟩, ⟨"m1", "s1", "assistant", "ok"⟩,
     ⟨"temp-assistant", "s1", "assistant", "par"⟩]
    rfl

lemma createFile_nodup (pr : Project) (fid : Nat) (raw : List Char) (d : Bool)
    (s : Nat) (pr' : Project) (h : createFile pr fid raw d s = Except.ok pr')
    (hnd : PathsNodup pr) : PathsNodup pr' := by
  unfold createFile at h
  rcases hnorm : normalizePath raw with _ | p
  · rw [hnorm] at h
    exact Except.noConfusion h
  simp only [hnorm] at h
  by_cases hconf : ∃ g ∈ pr.files, g.path = p
  · rw [dif_pos hconf] at h
    exact Except.noConfusion h
  rw [dif_neg hconf] at h
  by_cases h1 : pr.maxFiles < fileCount pr + (if d then 0 else 1)
  · rw [if_pos h1] at h
    exact Except.noConfusion h
  rw [if_neg h1] at h
  by_cases h2 : pr.maxSizeKb * 1024 < totalSizeBytes pr + (if d then 0 else s)
  · rw [if_pos h2] at h
    exact Except.noConfusion h
  rw [if_neg h2] at h
  injection h with h
  subst h
  unfold PathsNodup filePaths at *
  simp only [List.map_append, List.map_cons, List.map_nil]
  rw [List.nodup_append]
  refine ⟨hnd, List.nodup_singleton p, ?_⟩
  intro q hq hq'
  rw [List.mem_singleton.mp hq'] at hq
  rcases List.mem_map.mp hq with ⟨g, hg, hgp⟩
  exact hconf ⟨g, hg, hgp⟩

lemma moveTo_nodup (pr : Project) (f : TreeFile) (p : TreePath) (pr' : Project)
    (h : moveTo pr f p = Except.ok pr') (hnd : PathsNodup pr) : PathsNodup pr' := by
  unfold moveTo at h
  split at h
  · exact Except.noConfusion h
  split at h
  · exact Except.noConfusion h
  next hconf =>
    injection h with h
    subst h
    unfold PathsNodup filePaths at *
    have hmm : (pr.files.map (fun g => { g with path := rewritePath f.path p g.path })).map TreeFile.path
        = (pr.files.map TreeFile.path).map (rewritePath f.path p) := by
      rw [List.map_map, List.map_map]
      rfl
    rw [hmm]
    refine List.Nodup.map_on ?_ hnd
    intro q1 hq1 q2 hq2 heq
    by_cases h1 : f.path <+: q1 <;> by_cases h2 : f.path <+: q2
    · obtain ⟨t1, rfl⟩ := h1
      obtain ⟨t2, rfl⟩ := h2
      unfold rewritePath at heq
      rw [if_pos (List.prefix_append _ _), if_pos (List.prefix_append _ _),
        List.drop_left, List.drop_left] at heq
      rw [List.append_cancel_left heq]
    · exfalso
      unfold rewritePath at heq
      rw [if_pos h1, if_neg h2] at heq
      rcases List.mem_map.mp hq1 with ⟨t, ht, rfl⟩
      rcases List.mem_map.mp hq2 with ⟨g, hg, rfl⟩
      refine hconf ⟨g, hg, h2, t, ht, h1, ?_⟩
      unfold rewritePath
      rw [if_pos h1]
      exact heq.symm
    · exfalso
      unfold rewritePath at heq
      rw [if_neg h1, if_pos h2] at heq
      rcases List.mem_map.mp hq1 with ⟨g, hg, rfl⟩
      rcases List.mem_map.mp hq2 with ⟨t, ht, rfl⟩
      refine hconf ⟨g, hg, h1, t, ht, h2, ?_⟩
      unfold rewritePath
      rw [if_pos h2]
      exact heq
    · unfold rewritePath at heq
      rw [if_neg h1, if_neg h2] at heq
      exact heq

lemma moveFile_nodup (pr : Project) (fid : Nat) (raw : List Char) (pr' : Project)
    (h : moveFile pr fid raw = Except.ok pr') (hnd : PathsNodup pr) : PathsNodup pr' := by
  unfold moveFile at h
  split at h
  · exact Except.noConfusion h
  next f _ =>
    split at h
    · exact Except.noConfusion h
    exact moveTo_nodup pr f _ pr' h hnd

lemma renameFile_nodup (pr : Project) (fid : Nat) (n : List Char) (pr' : Project)
    (h : renameFile pr fid n = Except.ok pr') (hnd : PathsNodup pr) : PathsNodup pr' := by
  unfold renameFile at h
  split at h
  · exact Except.noConfusion h
  next f _ =>
    split at h
    · exact Except.noConfusion h
    exact moveTo_nodup pr f _ pr' h hnd

lemma stepOp_nodup (pr : Project) (op : FileOp) (hnd : PathsNodup pr) :
    PathsNodup (stepOp pr op) := by
  unfold stepOp
  rcases hop : applyOp pr op with e | pr'
  · exact hnd
  · cases op with
    | create i q d s => exact createFile_nodup pr i q d s pr' hop hnd
    | move i q => exact moveFile_nodup pr i q pr' hop hnd
    | rename i n => exact renameFile_nodup pr i n pr' hop hnd

/-- C2 (spec-modelled): path uniqueness is preserved by every file-tree
operation — starting from any project whose normalized paths are pairwise
distinct, after any sequence of create/move/rename operations no two
`ProjectFile` entries share the same normalized path. -/
theorem claim_c2_path_uniqueness (pr : Project) (hnd : PathsNodup pr)
    (ops : List FileOp) : PathsNodup (applyOps pr ops) := by
  induction ops generalizing pr with
  | nil => exact hnd
  | cons op rest ih => exact ih (stepOp pr op) (stepOp_nodup pr op hnd)

theorem claim_c2_path_uniqueness_witness :
    PathsNodup (applyOps ⟨10, 10, []⟩
      [FileOp.create 1 (chars "/src") true 0,
       FileOp.create 2 (chars "/src/a.py") false 7,
       FileOp.create 3 (chars "/src/a.py") false 7,
       FileOp.rename 2 (chars "b.py"),
       FileOp.move 1 (chars "/lib")]) :=
  claim_c2_path_uniqueness ⟨10, 10, []⟩ (by decide)
    [FileOp.create 1 (chars "/src") true 0,
     FileOp.create 2 (chars "/src/a.py") false 7,
     FileOp.create 3 (chars "/src/a.py") false 7,
     FileOp.rename 2 (chars "b.py"),
     FileOp.move 1 (chars "/lib")]

/-- C3 (spec-modelled): with `max_files = 2` and no existing files, a first
and a second file create succeed and a third fails with `QuotaExceeded`; in
general, on a normalizable, conflict-free path, create fails with
`QuotaExceeded` exactly when the existing aggregate plus the new entry would
violate `max_files` or `max_size_kb`, and a failed operation leaves the
project unchanged. -/
theorem claim_c3_quota_exceeded :
    createFile ⟨2, 10240, []⟩ 1 (chars "/a.py") false 10
      = Except.ok ⟨2, 10240, [⟨1, [chars "a.py"], false, 10⟩]⟩
    ∧ createFile ⟨2, 10240, [⟨1, [chars "a.py"], false, 10⟩]⟩ 2 (chars "/b.py") false 10
      = Except.ok ⟨2, 10240, [⟨1, [chars "a.py"], false, 10⟩, ⟨2, [chars "b.py"], false, 10⟩]⟩
    ∧ createFile ⟨2, 10240, [⟨1, [chars "a.py"], false, 10⟩, ⟨2, [chars "b.py"], false, 10⟩]⟩
        3 (chars "/c.py") false 10
      = Except.error (SpecError.quotaExceeded QuotaDim.files)
    ∧ (∀ (pr : Project) (fid : Nat) (raw : List Char) (isDir : Bool) (size : Nat)
        (p : TreePath), normalizePath raw = some p →
        (¬ ∃ g ∈ pr.files, g.path = p) →
        ((∃ dim, createFile pr fid raw isDir size = Except.error (SpecError.quotaExceeded dim))
          ↔ (pr.maxFiles < fileCount pr + (if isDir then 0 else 1)
             ∨ pr.maxSizeKb * 1024 < totalSizeBytes pr + (if isDir then 0 else size))))
    ∧ (∀ (pr : Project) (op : FileOp) (e : SpecError),
        applyOp pr op = Except.error e → stepOp pr op = pr) := by
  refine ⟨by decide, by decide, by decide, ?_, ?_⟩
  · intro pr fid raw isDir size p hnorm hconf
    unfold createFile
    simp only [hnorm]
    rw [dif_neg hconf]
    by_cases h1 : pr.maxFiles < fileCount pr + (if isDir then 0 else 1)
    · simp only [if_pos h1]
      exact ⟨fun _ => Or.inl h1, fun _ => ⟨QuotaDim.files, rfl⟩⟩
    · simp only [if_neg h1]
      by_cases h2 : pr.maxSizeKb * 1024 < totalSizeBytes pr + (if isDir then 0 else size)
      · simp only [if_pos h2]
        exact ⟨fun _ => Or.inr h2, fun _ => ⟨QuotaDim.size, rfl⟩⟩
      · simp only [if_neg h2]
        constructor
        · rintro ⟨dim, hdim⟩
          exact Except.noConfusion hdim
        · rintro (h | h)
          · exact absurd h h1
          · exact absurd h h2
  · intro pr op e h
    unfold stepOp
    rw [h]

theorem claim_c3_quota_exceeded_witness :
    ((∃ dim, createFile ⟨0, 1, []⟩ 9 (chars "/x.py") false 0
        = Except.error (SpecError.quotaExceeded dim))
      ↔ ((⟨0, 1, []⟩ : Project).maxFiles < fileCount ⟨0, 1, []⟩ + (if false then 0 else 1)
         ∨ (⟨0, 1, []⟩ : Project).maxSizeKb * 1024
             < totalSizeBytes ⟨0, 1, []⟩ + (if false then 0 else 0)))
    ∧ stepOp ⟨0, 1, []⟩ (FileOp.move 5 (chars "/y")) = ⟨0, 1, []⟩ :=
  ⟨claim_c3_quota_exceeded.2.2.2.1 ⟨0, 1, []⟩ 9 (chars "/x.py") false 0
      [chars "x.py"] (by decide) (by decide),
   claim_c3_quota_exceeded.2.2.2.2 ⟨0, 1, []⟩ (FileOp.move 5 (chars "/y"))
      SpecError.notFound (by decide)⟩

lemma takeWord_len (s : List Char) : (takeWord s).2.length ≤ s.length := by
  induction s with
  | nil => simp [takeWord]
  | cons c rest ih =>
    by_cases hc : wordChar c
    · simp only [takeWord, if_pos hc]
      exact Nat.le_succ_of_le ih
    · simp [takeWord, if_neg hc]

lemma startsTriple_length (s : List Char) (h : startsTriple s = true) : 3 ≤ s.length := by
  match s with
  | [] => exact absurd h (by simp [startsTriple])
  | [a] => exact absurd h (by simp [startsTriple])
  | [a, b] => exact absurd h (by simp [startsTriple])
  | a :: b :: c :: t => simp

lemma openFence_len (s w r : List Char) (h : openFence s = some (w, r)) :
    r.length < s.length := by
  unfold openFence at h
  by_cases h3 : startsTriple s
  · rw [if_pos h3] at h
    rcases htw : takeWord (s.drop 3) with ⟨w', r'⟩
    rw [htw] at h
    cases r' with
    | nil => exact Option.noConfusion h
    | cons c rr =>
      dsimp only at h
      by_cases hc : c = '\n'
      · rw [if_pos hc] at h
        injection h with h
        injection h with h1 h2
        subst h2
        have hlen : (c :: rr).length ≤ (s.drop 3).length := by
          have := takeWord_len (s.drop 3)
          rw [htw] at this
          exact this
        have h3l : 3 ≤ s.length := startsTriple_length s h3
        simp only [List.length_cons, List.length_drop] at hlen
        omega
      · rw [if_neg hc] at h
        exact Option.noConfusion h
  · rw [if_neg h3] at h
    exact Option.noConfusion h

lemma findClose_len (s : List Char) : ∀ b r, findClose s = some (b, r) →
    r.length < s.length := by
  induction s with
  | nil => intro b r h; exact Option.noConfusion h
  | cons c rest ih =>
    intro b r h
    unfold findClose at h
    by_cases h3 : startsTriple (c :: rest)
    · rw [if_pos h3] at h
      injection h with h
      injection h with h1 h2
      subst h2
      have := startsTriple_length _ h3
      simp only [List.length_drop]
      omega
    · rw [if_neg h3] at h
      rcases hf : findClose rest with _ | ⟨b', r'⟩
      · rw [hf] at h
        exact Option.noConfusion h
      · rw [hf] at h
        injection h with h
        injection h with h1 h2
        subst h2
        have := ih b' r' hf
        simp only [List.length_cons]
        omega

lemma fenceMatch_len (s w b rest : List Char)
    (h : fenceMatch s = some (w, b, rest)) : rest.length < s.length := by
  unfold fenceMatch at h
  rcases ho : openFence s with _ | ⟨w', r⟩
  · rw [ho] at h
    exact Option.noConfusion h
  · rw [ho] at h
    dsimp only at h
    rcases hf : findClose r with _ | ⟨b', rest'⟩
    · rw [hf] at h
      exact Option.noConfusion h
    · rw [hf] at h
      dsimp only at h
      injection h with h
      injection h with h1 h2
      injection h2 with h2 h3
      subst h3
      exact Nat.lt_trans (findClose_len r b' rest' hf) (openFence_len s w' r ho)

lemma fenceMatch_nil : fenceMatch [] = none := rfl

lemma scanAux_nil (fuel : Nat) : scanAux fuel [] = [] := by
  cases fuel <;> rfl

lemma scanAux_congr (f1 : Nat) : ∀ (f2 : Nat) (s : List Char),
    s.length ≤ f1 → s.length ≤ f2 → scanAux f1 s = scanAux f2 s := by
  induction f1 with
  | zero =>
    intro f2 s h1 _
    rw [List.length_eq_zero.mp (Nat.le_zero.mp h1)]
    rw [scanAux_nil, scanAux_nil]
  | succ k ih =>
    intro f2 s h1 h2
    cases s with
    | nil => rw [scanAux_nil, scanAux_nil]
    | cons c t =>
      cases f2 with
      | zero => simp at h2
      | succ m =>
        simp only [scanAux]
        rcases hm : fenceMatch (c :: t) with _ | ⟨w, b, rest⟩
        · exact ih m t (by simp at h1; omega) (by simp at h2; omega)
        · have hr := fenceMatch_len _ _ _ _ hm
          simp only [List.length_cons] at h1 h2 hr
          dsimp only
          rw [ih m rest (by omega) (by omega)]

lemma scanBlocks_match (s w b rest : List Char)
    (h : fenceMatch s = some (w, b, rest)) :
    scanBlocks s = (w, b) :: scanBlocks rest := by
  cases s with
  | nil => rw [fenceMatch_nil] at h; exact Option.noConfusion h
  | cons c t =>
    unfold scanBlocks
    simp only [List.length_cons, scanAux, h]
    have hr := fenceMatch_len _ _ _ _ h
    simp only [List.length_cons] at hr
    rw [scanAux_congr t.length rest.length rest (by omega) (by omega)]

lemma scanBlocks_skip (c : Char) (t : List Char) (h : fenceMatch (c :: t) = none) :
    scanBlocks (c :: t) = scanBlocks t := by
  unfold scanBlocks
  simp only [List.length_cons, scanAux, h]

lemma startsTriple_cons_ne (c : Char) (X : List Char) (h : c ≠ bq) :
    startsTriple (c :: X) = false := by
  cases X with
  | nil => rfl
  | cons a Y =>
    cases Y with
    | nil => rfl
    | cons e Z =>
      simp only [startsTriple, Bool.and_eq_false_imp]
      simp [beq_eq_false_iff_ne.mpr h]

lemma fenceMatch_cons_ne (c : Char) (t : List Char) (h : c ≠ bq) :
    fenceMatch (c :: t) = none := by
  unfold fenceMatch openFence
  rw [startsTriple_cons_ne c t h]
  simp

lemma scanBlocks_append_no_bq (t s : List Char) (h : bq ∉ t) :
    scanBlocks (t ++ s) = scanBlocks s := by
  induction t with
  | nil => rfl
  | cons c t' ih =>
    have hc : c ≠ bq := fun e => h (by simp [e])
    have ht' : bq ∉ t' := fun m => h (by simp [m])
    rw [List.cons_append, scanBlocks_skip c (t' ++ s) (fenceMatch_cons_ne c _ hc)]
    exact ih ht'

lemma takeWord_exact (w : List Char) (d : Char) (rest : List Char)
    (hw : ∀ c ∈ w, wordChar c = true) (hd : wordChar d = false) :
    takeWord (w ++ d :: rest) = (w, d :: rest) := by
  induction w with
  | nil => simp [takeWord, hd]
  | cons c w' ih =>
    have hc : wordChar c = true := hw c (by simp)
    have hw' : ∀ x ∈ w', wordChar x = true := fun x hx => hw x (by simp [hx])
    simp [takeWord, hc, ih hw']

lemma startsTriple_bq (X : List Char) : startsTriple (bq :: bq :: bq :: X) = true := by
  simp [startsTriple]

lemma findClose_exact (b rest : List Char) (hb : bq ∉ b) :
    findClose (b ++ bq :: bq :: bq :: rest) = some (b, rest) := by
  induction b with
  | nil =>
    rw [List.nil_append]
    unfold findClose
    rw [if_pos (startsTriple_bq rest)]
    rfl
  | cons c b' ih =>
    have hc : c ≠ bq := fun e => hb (by simp [e])
    have hb' : bq ∉ b' := fun m => hb (by simp [m])
    rw [List.cons_append]
    unfold findClose
    rw [if_neg (by simp [startsTriple_cons_ne _ _ hc])]
    rw [ih hb']

lemma openFence_exact (w tail : List Char) (hw : ∀ c ∈ w, wordChar c = true) :
    openFence (bq :: bq :: bq :: (w ++ '\n' :: tail)) = some (w, tail) := by
  unfold openFence
  rw [if_pos (startsTriple_bq _)]
  have hdrop : (bq :: bq :: bq :: (w ++ '\n' :: tail)).drop 3 = w ++ '\n' :: tail := rfl
  rw [hdrop, takeWord_exact w '\n' tail hw (by decide)]
  simp

lemma fenceMatch_exact (lang : String) (body rest : List Char)
    (hw : ∀ c ∈ chars lang, wordChar c = true) (hb : bq ∉ body) :
    fenceMatch (fenceBlock lang body ++ rest) = some (chars lang, body, rest) := by
  have he : fenceBlock lang body ++ rest
      = bq :: bq :: bq :: (chars lang ++ '\n' :: (body ++ bq :: bq :: bq :: rest)) := by
    simp [fenceBlock]
  rw [he]
  unfold fenceMatch
  rw [openFence_exact (chars lang) _ hw]
  dsimp only
  rw [findClose_exact body rest hb]

lemma scanBlocks_fence (lang : String) (body rest : List Char)
    (hw : ∀ c ∈ chars lang, wordChar c = true) (hb : bq ∉ body) :
    scanBlocks (fenceBlock lang body ++ rest) = (chars lang, body) :: scanBlocks rest :=
  scanBlocks_match _ _ _ _ (fenceMatch_exact lang body rest hw hb)

/-- C1: `extractCodeBlocks` scans the completed text for triple-backtick
fenced regions with an optional language tag and returns the `(language,
code)` pairs in source order — for a message holding exactly two fenced
blocks tagged `python` then `javascript` (surrounding text and bodies free of
backticks), it returns exactly those two pairs in that order. -/
theorem claim_c1_extract_code_blocks (t1 t2 t3 b1 b2 : List Char)
    (h1 : bq ∉ t1) (h2 : bq ∉ t2) (h3 : bq ∉ t3) (hb1 : bq ∉ b1) (hb2 : bq ∉ b2) :
    extractCodeBlocks
        (t1 ++ (fenceBlock "python" b1 ++ (t2 ++ (fenceBlock "javascript" b2 ++ t3))))
      = [("python", trimChars b1), ("javascript", trimChars b2)] := by
  unfold extractCodeBlocks
  rw [scanBlocks_append_no_bq t1 _ h1]
  rw [scanBlocks_fence "python" b1 _ (by decide) hb1]
  rw [scanBlocks_append_no_bq t2 _ h2]
  rw [scanBlocks_fence "javascript" b2 t3 (by decide) hb2]
  have ht3 : scanBlocks t3 = [] := by
    have := scanBlocks_append_no_bq t3 [] h3
    simpa using this
  rw [ht3]
  have hp : langOf (chars "python") = "python" := by decide
  have hj : langOf (chars "javascript") = "javascript" := by decide
  simp [hp, hj]

theorem claim_c1_extract_code_blocks_witness :
    extractCodeBlocks
        (chars "Intro " ++ (fenceBlock "python" (chars "print(1)")
          ++ (chars "\nmiddle " ++ (fenceBlock "javascript" (chars "console.log(2)")
            ++ chars " end"))))
      = [("python", trimChars (chars "print(1)")),
         ("javascript", trimChars (chars "console.log(2)"))] :=
  claim_c1_extract_code_blocks (chars "Intro ") (chars "\nmiddle ") (chars " end")
    (chars "print(1)") (chars "console.log(2)")
    (by decide) (by decide) (by decide) (by decide) (by decide)

lemma renderAux_filterMap (fuel : Nat) : ∀ (pre s : List Char),
    (renderAux fuel pre s).filterMap codeOf
      = (scanAux fuel s).map (fun p => (langOf p.1, trimChars p.2)) := by
  induction fuel with
  | zero =>
    intro pre s
    by_cases hp : pre = [] <;> simp [renderAux, scanAux, codeOf, hp]
  | succ f ih =>
    intro pre s
    simp only [renderAux, scanAux]
    rcases hm : fenceMatch s with _ | ⟨w, b, rest⟩
    · cases s with
      | nil => by_cases hp : pre = [] <;> simp [codeOf, hp]
      | cons c t =>
        dsimp only
        exact ih (pre ++ [c]) t
    · dsimp only
      rw [List.filterMap_append, List.map_cons, List.filterMap_cons]
      have hpre : List.filterMap codeOf (if pre = [] then [] else [MsgPart.text pre]) = [] := by
        by_cases hp : pre = [] <;> simp [codeOf, hp]
      rw [hpre]
      simp [codeOf, ih [] rest]

/-- C8: the sequence of `(language, code)` pairs rendered as code blocks by
`renderMessageContent` equals the sequence `extractCodeBlocks` returns on the
same text — both recognise exactly the regions of the pattern
`` /```(\w+)?\n(.*?)```/gs ``, with the same trim and the same `plaintext`
default. -/
theorem claim_c8_render_matches_extract (content : List Char) :
    (renderMessageContent content).filterMap codeOf = extractCodeBlocks content := by
  unfold renderMessageContent extractCodeBlocks scanBlocks
  exact renderAux_filterMap content.length [] content

lemma head_dropWhile_not (p : Char → Bool) (l : List Char) :
    ∀ c, (l.dropWhile p).head? = some c → p c = false := by
  induction l with
  | nil => intro c h; exact Option.noConfusion h
  | cons a t ih =>
    intro c h
    by_cases ha : p a
    · rw [List.dropWhile_cons_of_pos ha] at h
      exact ih c h
    · rw [List.dropWhile_cons_of_neg ha] at h
      have hac : a = c := by simpa using h
      rw [← hac]
      exact Bool.eq_false_iff.mpr ha

lemma getLast_dropWhile (p : Char → Bool) (l : List Char)
    (hne : l.dropWhile p ≠ []) : (l.dropWhile p).getLast? = l.getLast? := by
  induction l with
  | nil => simp at hne
  | cons a t ih =>
    by_cases ha : p a
    · rw [List.dropWhile_cons_of_pos ha] at hne ⊢
      rw [ih hne]
      have ht : t ≠ [] := by
        intro e
        rw [e] at hne
        simp at hne
      rw [List.getLast?_cons, List.getLast?_eq_getLast t ht]
      simp
    · rw [List.dropWhile_cons_of_neg ha]

/-- C10: each pair produced by `extractCodeBlocks` from a matched fence is
the trimmed body with the `plaintext` default for a missing tag — the head of
the result list comes from the match at hand, an empty tag yields the literal
`plaintext`, and no returned code string starts or ends with whitespace. -/
theorem claim_c10_plaintext_trim (s lang body rest : List Char)
    (h : fenceMatch s = some (lang, body, rest)) :
    extractCodeBlocks s = (langOf lang, trimChars body) :: extractCodeBlocks rest
    ∧ (lang = [] → langOf lang = "plaintext")
    ∧ (∀ p ∈ extractCodeBlocks s,
        (∀ c, p.2.head? = some c → c.isWhitespace = false)
        ∧ (∀ c, p.2.getLast? = some c → c.isWhitespace = false)) := by
  refine ⟨?_, fun he => by simp [langOf, he], ?_⟩
  · unfold extractCodeBlocks
    rw [scanBlocks_match s lang body rest h]
    simp
  · intro p hp
    rcases List.mem_map.mp hp with ⟨q, _, rfl⟩
    dsimp only
    constructor
    · intro c hc
      unfold trimChars at hc
      rcases hd : ((q.2.dropWhile Char.isWhitespace).reverse.dropWhile Char.isWhitespace) with _ | ⟨a, u⟩
      · rw [hd] at hc
        exact Option.noConfusion hc
      · rw [hd] at hc
        rw [List.head?_reverse] at hc
        have hg : ((q.2.dropWhile Char.isWhitespace).reverse.dropWhile Char.isWhitespace).getLast?
            = (q.2.dropWhile Char.isWhitespace).reverse.getLast? := by
          apply getLast_dropWhile
          rw [hd]
          simp
        rw [hd] at hg
        rw [hg] at hc
        rw [List.getLast?_reverse] at hc
        exact head_dropWhile_not Char.isWhitespace q.2 c hc
    · intro c hc
      unfold trimChars at hc
      rw [List.getLast?_reverse] at hc
      exact head_dropWhile_not Char.isWhitespace _ c hc

theorem claim_c10_plaintext_trim_witness :
    extractCodeBlocks (chars "```\n  x  ```")
      = (langOf [], trimChars (chars "  x  ")) :: extractCodeBlocks []
    ∧ (([] : List Char) = [] → langOf [] = "plaintext")
    ∧ (∀ p ∈ extractCodeBlocks (chars "```\n  x  ```"),
        (∀ c, p.2.head? = some c → c.isWhitespace = false)
        ∧ (∀ c, p.2.getLast? = some c → c.isWhitespace = false)) :=
  claim_c10_plaintext_trim (chars "```\n  x  ```") [] (chars "  x  ") [] (by decide)

lemma processStreamLine_eq (parse : List Char → Option StreamData)
    (acc line : List Char) :
    processStreamLine parse acc line = acc ++ (lineContent parse line).getD [] := by
  unfold processStreamLine lineContent
  by_cases hm : dataMarker <+: line
  · rw [if_pos hm, if_pos hm]
    rcases hp : parse (line.drop 6) with _ | d
    · simp
    · rcases hd : d.content with _ | c
      · simp [hd]
      · by_cases hc : c = [] <;> simp [hd, hc]
  · rw [if_neg hm, if_neg hm]
    simp

lemma foldl_processStreamLine (parse : List Char → Option StreamData)
    (lines : List (List Char)) : ∀ acc,
    lines.foldl (processStreamLine parse) acc = acc ++ contentConcat parse lines := by
  induction lines with
  | nil => intro acc; simp [contentConcat]
  | cons l ls ih =>
    intro acc
    rw [List.foldl_cons, ih, processStreamLine_eq]
    unfold contentConcat
    rcases hl : lineContent parse l with _ | c <;>
      simp [List.filterMap_cons, hl, contentConcat]

lemma splitCh_append (sep : Char) (a b : List Char) :
    splitCh sep (a ++ b)
      = ((splitCh sep a).1 ++ (splitCh sep ((splitCh sep a).2 ++ b)).1,
         (splitCh sep ((splitCh sep a).2 ++ b)).2) := by
  induction a with
  | nil => simp [splitCh]
  | cons c a' ih =>
    by_cases hc : c = sep
    · simp only [List.cons_append, splitCh, List.append_eq, if_pos hc]
      rw [ih]
    · simp only [List.cons_append, splitCh, List.append_eq, if_neg hc]
      rw [ih]
      rcases h1 : (splitCh sep a').1 with _ | ⟨l0, ls0⟩
      · simp only [h1, List.nil_append, List.cons_append]
        simp only [splitCh, if_neg hc]
      · simp [h1]

lemma contentConcat_append (parse : List Char → Option StreamData)
    (l1 l2 : List (List Char)) :
    contentConcat parse (l1 ++ l2) = contentConcat parse l1 ++ contentConcat parse l2 := by
  unfold contentConcat
  rw [List.filterMap_append, List.flatten_append]

lemma streamFold_invariant (parse : List Char → Option StreamData)
    (chunks : List (List Char)) : ∀ (buffer acc : List Char), '\n' ∉ buffer →
    chunks.foldl (processStreamChunk parse) (buffer, acc)
      = ((splitCh '\n' (buffer ++ chunks.flatten)).2,
         acc ++ contentConcat parse (splitCh '\n' (buffer ++ chunks.flatten)).1) := by
  induction chunks with
  | nil =>
    intro buffer acc hb
    simp [splitCh_no_sep '\n' buffer hb, contentConcat]
  | cons ch rest ih =>
    intro buffer acc hb
    rw [List.foldl_cons]
    have hstep : processStreamChunk parse (buffer, acc) ch
        = ((splitCh '\n' (buffer ++ ch)).2,
           acc ++ contentConcat parse (splitCh '\n' (buffer ++ ch)).1) := by
      unfold processStreamChunk
      dsimp only
      rw [foldl_processStreamLine]
    rw [hstep, ih _ _ ((splitCh_sep_not_mem '\n' (buffer ++ ch)).2)]
    have hflat : buffer ++ (ch :: rest).flatten = (buffer ++ ch) ++ rest.flatten := by
      simp [List.flatten_cons]
    rw [hflat, splitCh_append '\n' (buffer ++ ch) rest.flatten, contentConcat_append]
    simp [List.append_assoc]

/-- C4 counterexample: a completed stream whose single `data: `-prefixed line
parses as JSON with content `hi` but is not newline-terminated.  The line is
received, yet the read loop leaves it in the buffer forever, so the assistant
content stays empty, not `hi` as the claim requires. -/
theorem claim_c4_counterexample :
    streamLoopContent parseHi [chars "data: \x7b\"content\":\"hi\"\x7d"] = []
    ∧ contentConcat parseHi
        (jsSplit '\n' (List.flatten [chars "data: \x7b\"content\":\"hi\"\x7d"]))
      = chars "hi"
    ∧ ([] : List Char) ≠ chars "hi" :=
  ⟨by decide, by decide, by decide⟩

/-- C4 (amended): once the stream completes, the assistant message content
equals the concatenation, in arrival order, of the `content` fields of every
received newline-terminated `data: `-prefixed line that parses as JSON —
regardless of how the text is cut into chunks; unparseable lines contribute
nothing, and a trailing line with no final newline stays in the buffer and
contributes nothing. -/
theorem claim_c4_stream_concat (parse : List Char → Option StreamData)
    (chunks : List (List Char)) :
    streamLoopContent parse chunks
      = contentConcat parse (splitCh '\n' chunks.flatten).1 := by
  unfold streamLoopContent
  rw [streamFold_invariant parse chunks [] [] (by simp)]
  simp
